import Mathlib

set_option autoImplicit false
set_option maxRecDepth 100000

/-!
Shallow embedding of the project-structure analysis and README synthesis
pipeline of `github_readme.py`, together with proofs about it.

Modelling conventions:
* Paths are strings; the traversal only ever joins a normalized directory
  path with a slash-free component name, where both `os.path.join(root, d)`
  and `str(Path(root) / file)` produce `root ++ "/" ++ name`, so one
  `joinPath` models both.  The supplied `project_path` is assumed to be in
  normal form (`str(Path(p)) = p`), as the analysis stores it verbatim.
* The filesystem under the analyzed root is supplied explicitly as an
  optional list of children trees: `none` models a nonexistent root,
  `some children` an existing directory.  A file node carries the outcome
  of its `stat` probe (metadata, or an `OSError` with an untyped cause).
* Python `dict`s keyed by strings become insertion-ordered association
  lists with in-place overwrite, `set()` becomes a duplicate-free list in
  insertion order, and Python's stable `sorted` becomes a stable insertion
  sort over the same lexicographic code-point order.
-/

/-- Glob matching over character lists with the wildcards `*` and `?` and
literal characters: the fragment of `fnmatch.fnmatch` (POSIX, hence case
sensitive) exercised by the fixed ignore-pattern list, which contains no
character classes. -/
def globMatch : List Char → List Char → Bool
  | [], [] => true
  | [], _ :: _ => false
  | '*' :: ps, cs => (List.tails cs).any (fun t => globMatch ps t)
  | '?' :: _, [] => false
  | '?' :: ps, _ :: cs => globMatch ps cs
  | _ :: _, [] => false
  | p :: ps, c :: cs => p == c && globMatch ps cs

/-- `os.path.basename`: the part of the path after the last `/`. -/
def basename (p : String) : String :=
  String.mk ((p.data.reverse.takeWhile (fun c => c != '/')).reverse)

/-- Joining a directory path and an entry name.  On the normalized paths
arising during the traversal, `os.path.join(root, d)` and
`str(Path(root) / file)` both yield this. -/
def joinPath (a b : String) : String := if a = "" then b else a ++ "/" ++ b

/-- `PurePath.suffix` of a file name: the substring from the last dot on,
when that dot (at index `i = name.rfind failing which none`) satisfies
`0 < i < len - 1`; the empty string otherwise. -/
def pathSuffix (name : String) : String :=
  let cs := name.data
  let after := cs.reverse.takeWhile (fun c => c != '.')
  if after.length = cs.length then ""
  else if 0 < cs.length - 1 - after.length ∧ cs.length - 1 - after.length < cs.length - 1 then
    String.mk ('.' :: after.reverse)
  else ""

/-- Splitting a character list at `/` separators. -/
def splitOnSlash : List Char → List (List Char)
  | [] => [[]]
  | c :: cs =>
      match splitOnSlash cs with
      | [] => [[]]
      | s :: rest => if c = '/' then [] :: s :: rest else (c :: s) :: rest

/-- `PurePath(p).name` for the path shapes reaching it here: the last
nontrivial path segment, or `""` when there is none (e.g. `"."`, `"/"`). -/
def pathName (p : String) : String :=
  (((splitOnSlash p.data).map String.mk).filter (fun s => s != "" && s != ".")).getLastD ""

/-- Python `str.lower` on one character, on the ASCII range this code
compares. -/
def charLower (c : Char) : Char :=
  if 'A' ≤ c ∧ c ≤ 'Z' then Char.ofNat (c.toNat + 32) else c

/-- Python `str.lower` (ASCII range). -/
def strLower (s : String) : String := String.mk (s.data.map charLower)

/-- Python `str.upper` on one character (ASCII range). -/
def charUpper (c : Char) : Char :=
  if 'a' ≤ c ∧ c ≤ 'z' then Char.ofNat (c.toNat - 32) else c

/-- Python `str.upper` (ASCII range). -/
def strUpper (s : String) : String := String.mk (s.data.map charUpper)

/-- `str(Path(p).relative_to(root))` for the paths produced by the walk,
where `p` is `root` itself or extends `root ++ "/"`. -/
def relPathStr (root p : String) : String :=
  if p = root then "."
  else if (root ++ "/").data.isPrefixOf p.data then p.drop (root.length + 1)
  else p

/-- Infix test on character lists: the needle occurs contiguously in the
haystack. -/
def listInfixOf (needle : List Char) : List Char → Bool
  | [] => needle.isEmpty
  | c :: cs => needle.isPrefixOf (c :: cs) || listInfixOf needle cs

/-- Python's `sub in s` substring test. -/
def strContains (s sub : String) : Bool := listInfixOf sub.data s.data

/-- Python's `s.startswith(pre)`, used to state facts about generated text. -/
def strStartsWith (s pre : String) : Bool := pre.data.isPrefixOf s.data

/-- Lexicographic order on character lists by code point. -/
def listLe : List Char → List Char → Bool
  | [], _ => true
  | _ :: _, [] => false
  | a :: as, b :: bs =>
      if a.toNat < b.toNat then true
      else if b.toNat < a.toNat then false
      else listLe as bs

/-- Python string comparison: lexicographic on code points. -/
def strLe (a b : String) : Bool := listLe a.data b.data

/-- Insert into a sorted list, placing the new element before later equal
elements; with `sortLe` this models Python's stable `sorted`. -/
def insertLe {α : Type} (le : α → α → Bool) (x : α) : List α → List α
  | [] => [x]
  | y :: ys => if le x y then x :: y :: ys else y :: insertLe le x ys

/-- Stable insertion sort, modelling Python's `sorted`. -/
def sortLe {α : Type} (le : α → α → Bool) : List α → List α
  | [] => []
  | x :: xs => insertLe le x (sortLe le xs)

/-- Adding to a Python `set()` modelled as a duplicate-free list kept in
insertion order. -/
def setAdd (l : List String) (x : String) : List String :=
  if l.contains x then l else l ++ [x]

/-- Folding `setAdd` over a list of new elements. -/
def setAddAll (acc : List String) (l : List String) : List String := l.foldl setAdd acc

/-- Python `dict` assignment `d[k] = v` on an insertion-ordered association
list: overwrite in place if the key exists, append otherwise. -/
def dictSet (d : List (String × String)) (k v : String) : List (String × String) :=
  if d.any (fun kv => kv.1 == k) then d.map (fun kv => if kv.1 = k then (k, v) else kv)
  else d ++ [(k, v)]

/-- Python `k in d` key membership. -/
def dictContains (d : List (String × String)) (k : String) : Bool :=
  d.any (fun kv => kv.1 == k)

/-- `str()` of a Python string-to-string dict, in insertion order. -/
def dictRepr (d : List (String × String)) : String :=
  "\x7b" ++
    String.intercalate ", "
      (d.map (fun kv => "\x27" ++ kv.1 ++ "\x27: \x27" ++ kv.2 ++ "\x27")) ++
    "\x7d"

/-- Concatenation of a list of strings, used to state facts about the
generated document. -/
def strConcat : List String → String
  | [] => ""
  | s :: rest => s ++ strConcat rest

/-- Outcome of the `file_path.stat()` probe on one file: either the
metadata the source reads (`st_size` and `is_file()`), or an `OSError`
whose detail the source discards. -/
inductive ProbeOutcome where
  | ok (size : Nat) (is_file : Bool)
  | oserror (cause : String)
deriving DecidableEq, Repr

/-- A filesystem tree as the traversal observes it: files carry their probe
outcome, directories their children in listing order. -/
inductive FSEntry where
  | file (name : String) (probe : ProbeOutcome)
  | dir (name : String) (children : List FSEntry)

/-- The dictionary `get_file_info` returns, with its optional fields. -/
structure FileEntry where
  name : String
  path : String
  size : Option Nat
  is_file : Option Bool
  extension : Option String
  error : Option String
deriving DecidableEq, Repr

/-- `IGNORE_PATTERNS` (source lines 12-16). -/
def IGNORE_PATTERNS : List String :=
  ["*.pyc", "__pycache__", ".git", ".gitignore", "node_modules",
   ".env", "*.log", ".DS_Store", "*.tmp", "*.temp", ".vscode",
   ".idea", "*.sqlite", "*.db", "dist", "build", ".pytest_cache"]

/-- `should_ignore` (source lines 18-24): the base name of the path is
tested against every ignore pattern. -/
def should_ignore (path : String) : Bool :=
  IGNORE_PATTERNS.any (fun pat => globMatch pat.data (basename path).data)

/-- `get_file_info` (source lines 26-38); the `file_path : Path` argument
is passed as the path string together with its final name component, and
the stat outcome as `probe`. -/
def get_file_info (file_path file_name : String) (probe : ProbeOutcome) : FileEntry :=
  match probe with
  | ProbeOutcome.ok sz isf =>
      { name := file_name, path := file_path, size := some sz,
        is_file := some isf, extension := some (pathSuffix file_name), error := none }
  | ProbeOutcome.oserror _ =>
      { name := file_name, path := file_path, size := none,
        is_file := none, extension := none, error := some "Access denied" }

/-- `key_files_patterns` (source lines 57-65), in insertion order. -/
def key_files_patterns : List (String × List String) :=
  [("readme", ["README.md", "README.txt", "README.rst", "readme.md"]),
   ("license", ["LICENSE", "LICENSE.txt", "LICENSE.md", "license"]),
   ("config", ["package.json", "requirements.txt", "setup.py", "Cargo.toml",
               "composer.json", "pom.xml", "build.gradle", "Gemfile"]),
   ("docker", ["Dockerfile", "docker-compose.yml", "docker-compose.yaml"]),
   ("ci", [".github/workflows", ".gitlab-ci.yml", ".travis.yml"]),
   ("env", [".env.example", ".env.sample"])]

/-- The extension allowlist of the language detection (source line 86). -/
def LANGUAGE_EXTENSIONS : List String :=
  [".py", ".js", ".ts", ".java", ".cpp", ".c", ".go", ".rs", ".rb", ".php"]

/-- The mutable aggregate built by `analyze_project_structure`'s loop; the
`directories` and `framework_indicators` fields of the source stay empty
and unread and are omitted. -/
structure AnalysisState where
  files : List FileEntry
  key_files : List (String × String)
  languages : List String
deriving DecidableEq, Repr

/-- Body of the `for file in files` loop (source lines 76-93): skip ignored
files; otherwise append the probe result, add the language tag of an
allowlisted (lowercased) extension, and record the file path under every
key-file category one of whose patterns matches the name. -/
def processEntry (st : AnalysisState) (dir_path file_name : String) (probe : ProbeOutcome) :
    AnalysisState :=
  let file_path := joinPath dir_path file_name
  if should_ignore file_path then st
  else
    let ext := strLower (pathSuffix file_name)
    { files := st.files ++ [get_file_info file_path file_name probe],
      languages :=
        if LANGUAGE_EXTENSIONS.contains ext then setAdd st.languages (ext.drop 1)
        else st.languages,
      key_files := key_files_patterns.foldl (fun kf cat =>
        cat.2.foldl (fun kf pat =>
          if strLower file_name = strLower pat ∨ file_name = pat then dictSet kf cat.1 file_path
          else kf) kf) st.key_files }

/-- The `files` component of one `os.walk` triple: the file children of a
directory, in listing order. -/
def filesOf : List FSEntry → List (String × ProbeOutcome)
  | [] => []
  | FSEntry.file n pr :: rest => (n, pr) :: filesOf rest
  | FSEntry.dir _ _ :: rest => filesOf rest

mutual
/-- One candidate subdirectory during `os.walk`: pruned exactly when the
parent's depth `d` is within the bound and the base name of its joined path
matches an ignore pattern (source lines 68-74; at depth `> max_depth` the
`continue` skips the filtering, so every subdirectory is descended into). -/
def walkEntry (max_depth : Nat) (p : String) (d : Nat) :
    FSEntry → List (String × Nat × List FSEntry)
  | FSEntry.file _ _ => []
  | FSEntry.dir n cs =>
      if max_depth < d || !(should_ignore (joinPath p n))
      then (joinPath p n, d + 1, cs) :: walkKids max_depth (joinPath p n) (d + 1) cs
      else []
termination_by structural e => e

/-- All `os.walk` triples strictly below a visited directory, in top-down
visit order. -/
def walkKids (max_depth : Nat) (p : String) (d : Nat) :
    List FSEntry → List (String × Nat × List FSEntry)
  | [] => []
  | e :: rest => walkEntry max_depth p d e ++ walkKids max_depth p d rest
termination_by structural l => l
end

/-- `os.walk(project_root)` with the source's in-loop pruning: the visited
`(dirpath, depth, children)` triples in order. -/
def osWalk (max_depth : Nat) (root : String) (children : List FSEntry) :
    List (String × Nat × List FSEntry) :=
  (root, 0, children) :: walkKids max_depth root 0 children

/-- The `for root, dirs, files in os.walk(...)` loop (source lines 68-93):
triples beyond the depth bound are skipped by the `continue`, otherwise
every file child is processed in order. -/
def analyzeFold (max_depth : Nat) (st : AnalysisState)
    (visited : List (String × Nat × List FSEntry)) : AnalysisState :=
  visited.foldl (fun st t =>
    if max_depth < t.2.1 then st
    else (filesOf t.2.2).foldl (fun s nf => processEntry s t.1 nf.1 nf.2) st) st

/-- The structure dict `analyze_project_structure` returns on success. -/
structure ProjectStructure where
  root : String
  files : List FileEntry
  key_files : List (String × String)
  languages : List String
deriving DecidableEq, Repr

/-- Result of `analyze_project_structure`: the `{"error": ...}` dict or the
structure dict, distinguished by constructor exactly as callers branch on
the presence of the `error` key. -/
inductive ScanResult where
  | err (msg : String)
  | ok (s : ProjectStructure)
deriving DecidableEq, Repr

/-- `analyze_project_structure` (source lines 40-96). -/
def analyze_project_structure (project_path : String) (fs : Option (List FSEntry))
    (max_depth : Nat) : ScanResult :=
  match fs with
  | none => ScanResult.err ("Project path \x27" ++ project_path ++ "\x27 does not exist")
  | some children =>
      let st := analyzeFold max_depth { files := [], key_files := [], languages := [] }
        (osWalk max_depth project_path children)
      ScanResult.ok { root := project_path, files := st.files,
                      key_files := st.key_files, languages := st.languages }

/-- `scan_project` (source lines 98-101): analysis at the default depth 3. -/
def scan_project (project_path : String) (fs : Option (List FSEntry)) : ScanResult :=
  analyze_project_structure project_path fs 3

/-- The `files` list of a scan result (empty for the error shape). -/
def scanFiles : ScanResult → List FileEntry
  | ScanResult.err _ => []
  | ScanResult.ok s => s.files

/-- The `languages` list of a scan result (empty for the error shape). -/
def scanLanguages : ScanResult → List String
  | ScanResult.err _ => []
  | ScanResult.ok s => s.languages

/-- The `key_files` dict of a scan result (empty for the error shape). -/
def scanKeyFiles : ScanResult → List (String × String)
  | ScanResult.err _ => []
  | ScanResult.ok s => s.key_files

/-- Ordering of file entries by their `path` field, the key of the
`sorted(..., key=lambda x: x["path"])` call. -/
def fileLe (a b : FileEntry) : Bool := strLe a.path b.path

/-- Title block of `generate_readme` (source lines 130-135): an absent or
falsy (empty) `project_name` falls back to `Path(project_path).name`. -/
def titlePart (project_path : String) (project_name : Option String) : String :=
  let pname := match project_name with
    | none => pathName project_path
    | some s => if s = "" then pathName project_path else s
  "# " ++ pname ++ "\n\n"

/-- Description block (source lines 137-141). -/
def descriptionPart (description : Option String) : String :=
  match description with
  | some d => if d = "" then "A brief description of your project.\n\n" else d ++ "\n\n"
  | none => "A brief description of your project.\n\n"

/-- Technologies block (source lines 143-148). -/
def technologiesPart (analysis : ProjectStructure) : String :=
  if analysis.languages.isEmpty then ""
  else
    "## Technologies Used\n\n" ++
    (sortLe strLe analysis.languages).foldl
      (fun acc lang => acc ++ ("- " ++ strUpper lang ++ "\n")) "" ++
    "\n"

/-- Installation block (source lines 150-161): substring tests against the
`str()` of the whole `key_files` dict, first match wins. -/
def installationPart (analysis : ProjectStructure) : String :=
  "## Installation\n\n" ++
  (if strContains (dictRepr analysis.key_files) "package.json" then
     "```bash\nnpm install\n```\n\n"
   else if strContains (dictRepr analysis.key_files) "requirements.txt" then
     "```bash\npip install -r requirements.txt\n```\n\n"
   else if strContains (dictRepr analysis.key_files) "Cargo.toml" then
     "```bash\ncargo build\n```\n\n"
   else "Add installation instructions here.\n\n")

/-- Usage block (source lines 163-165). -/
def usagePart : String := "## Usage\n\nDescribe how to use your project here.\n\n"

/-- Project-structure block (source lines 167-175): emitted only for at
most 20 entries; an entry whose `is_file` field is present and `False` is
skipped (`file_info.get("is_file", True)`). -/
def structurePart (analysis : ProjectStructure) : String :=
  if analysis.files.length ≤ 20 then
    "## Project Structure\n\n```\n" ++
    (sortLe fileLe analysis.files).foldl
      (fun acc fi =>
        if fi.is_file.getD true then acc ++ (relPathStr analysis.root fi.path ++ "\n")
        else acc) "" ++
    "```\n\n"
  else ""

/-- Contributing block (source lines 177-183). -/
def contributingPart : String :=
  "## Contributing\n\n1. Fork the repository\n2. Create your feature branch (`git checkout -b feature/AmazingFeature`)\n3. Commit your changes (`git commit -m \x27Add some AmazingFeature\x27`)\n4. Push to the branch (`git push origin feature/AmazingFeature`)\n5. Open a Pull Request\n\n"

/-- License block (source lines 185-188). -/
def licensePart (analysis : ProjectStructure) : String :=
  if dictContains analysis.key_files "license" then
    "## License\n\nThis project is licensed under the terms found in the LICENSE file.\n\n"
  else ""

/-- `generate_readme` (source lines 120-190) as the concatenation of its
sequentially appended blocks. -/
def generate_readme (project_path : String) (fs : Option (List FSEntry))
    (project_name description : Option String) : String :=
  match analyze_project_structure project_path fs 3 with
  | ScanResult.err e => "Error: " ++ e
  | ScanResult.ok analysis =>
      titlePart project_path project_name ++ descriptionPart description ++
      technologiesPart analysis ++ installationPart analysis ++ usagePart ++
      structurePart analysis ++ contributingPart ++ licensePart analysis

/-- Names valid as single path components: nonempty and slash-free. -/
def validName (n : String) : Bool := n != "" && !(n.data.contains '/')

mutual
/-- Well-formedness of a tree: every component name is valid. -/
def validEntry : FSEntry → Bool
  | FSEntry.file n _ => validName n
  | FSEntry.dir n cs => validName n && validList cs
termination_by structural e => e

/-- Well-formedness of a list of children trees. -/
def validList : List FSEntry → Bool
  | [] => true
  | e :: rest => validEntry e && validList rest
termination_by structural l => l
end

/-- The characters of a relative path assembled from segment names, each
segment preceded by a separator. -/
def flatSegs : List String → List Char
  | [] => []
  | s :: rest => '/' :: (s.data ++ flatSegs rest)

/-- Depth of `p` relative to `root` as a path-segment count: one more than
the number of separators in the part of `p` after `root ++ "/"`. -/
def relDepth (root p : String) : Nat :=
  (p.data.drop (root.data.length + 1)).count '/' + 1

/-- The language tag (if any) the loop body derives from a file name
(source lines 84-87). -/
def tagOfName (n : String) : Option String :=
  let ext := strLower (pathSuffix n)
  if LANGUAGE_EXTENSIONS.contains ext then some (ext.drop 1) else none

/-- The entries the loop body appends for the file children of one visited
directory. -/
def dirEmitted (p : String) : List (String × ProbeOutcome) → List FileEntry
  | [] => []
  | nf :: rest =>
      (if should_ignore (joinPath p nf.1) then []
       else [get_file_info (joinPath p nf.1) nf.1 nf.2]) ++ dirEmitted p rest

/-- All entries appended over a walk, in processing order. -/
def allEmitted (max_depth : Nat) : List (String × Nat × List FSEntry) → List FileEntry
  | [] => []
  | t :: rest =>
      (if max_depth < t.2.1 then [] else dirEmitted t.1 (filesOf t.2.2)) ++
      allEmitted max_depth rest

/-- Concrete tree for C1: one directory `a` holding one file `f.py`. -/
def treeC1 : List FSEntry := [FSEntry.dir "a" [FSEntry.file "f.py" (ProbeOutcome.ok 3 true)]]

/-- The entry `analyze_project_structure "r" (some treeC1) 1` emits. -/
def entryC1 : FileEntry :=
  { name := "f.py", path := "r/a/f.py", size := some 3, is_file := some true,
    extension := some ".py", error := none }

/-- Concrete tree for C2: both a `package.json` and a `Cargo.toml`, listed
in that order. -/
def treeC2 : List FSEntry :=
  [FSEntry.file "package.json" (ProbeOutcome.ok 1 true),
   FSEntry.file "Cargo.toml" (ProbeOutcome.ok 1 true)]

/-- Concrete tree for C3: one file `a.py` whose probe fails. -/
def treeC3 : List FSEntry := [FSEntry.file "a.py" (ProbeOutcome.oserror "disk failure")]

/-- Concrete tree for C4 and C5 witnesses: one plain Python file. -/
def treeC4 : List FSEntry := [FSEntry.file "a.py" (ProbeOutcome.ok 1 true)]

/-- The entry `scan_project "r" (some treeC4)` emits. -/
def entryC4 : FileEntry :=
  { name := "a.py", path := "r/a.py", size := some 1, is_file := some true,
    extension := some ".py", error := none }

/-- Concrete tree for C5: one file with an upper-case suffix. -/
def treeC5 : List FSEntry := [FSEntry.file "X.PY" (ProbeOutcome.ok 5 true)]

/-- The entry `scan_project "r" (some treeC5)` emits. -/
def entryC5 : FileEntry :=
  { name := "X.PY", path := "r/X.PY", size := some 5, is_file := some true,
    extension := some ".PY", error := none }

/-- Concrete tree for C6: one entry whose successful probe reports
`is_file = False` (e.g. a FIFO or a broken symlink). -/
def treeC6 : List FSEntry := [FSEntry.file "fifo" (ProbeOutcome.ok 0 false)]

/-- Concrete structure for the C2 witness: a `key_files` dict whose
`config` slot holds a `Cargo.toml` path. -/
def psC2 : ProjectStructure :=
  { root := "r", files := [], key_files := [("config", "r/Cargo.toml")], languages := [] }

/-- Concrete structure for the C6 witness. -/
def psC6 : ProjectStructure :=
  { root := "r", files := [entryC4], key_files := [], languages := [] }

/-! ### Basic lemmas about the helpers -/

theorem scan_single_py_file :
    scanFiles (scan_project "r" (some [FSEntry.file "a.py" (ProbeOutcome.ok 7 true)])) =
      [{ name := "a.py", path := "r/a.py", size := some 7, is_file := some true,
         extension := some ".py", error := none }] := rfl

theorem scan_deep_file_bound :
    (scanFiles (scan_project "r"
      (some [FSEntry.dir "a" [FSEntry.dir "b" [FSEntry.dir "c" [FSEntry.dir "d"
        [FSEntry.file "deep.py" (ProbeOutcome.ok 1 true)]]]]]))).map FileEntry.name = [] ∧
    (scanFiles (scan_project "r"
      (some [FSEntry.dir "a" [FSEntry.dir "b" [FSEntry.dir "c"
        [FSEntry.file "ok.py" (ProbeOutcome.ok 1 true)]]]]))).map FileEntry.path =
      ["r/a/b/c/ok.py"] := ⟨rfl, rfl⟩

theorem scan_prunes_ignored_subtree :
    (scanFiles (scan_project "r"
      (some [FSEntry.file "a.pyc" (ProbeOutcome.ok 1 true),
             FSEntry.dir "node_modules" [FSEntry.file "x.js" (ProbeOutcome.ok 1 true)],
             FSEntry.file "b.py" (ProbeOutcome.ok 1 true)]))).map FileEntry.name =
      ["b.py"] := rfl

theorem string_ne_empty_of_data {p : String} (h : p.data ≠ []) : p ≠ "" := by
  intro he
  subst he
  exact h rfl

theorem joinPath_data (a b : String) (h : a ≠ "") :
    (joinPath a b).data = a.data ++ '/' :: b.data := by
  unfold joinPath
  rw [if_neg h, String.data_append, String.data_append]
  have hs : "/".data = ['/'] := rfl
  rw [hs, List.append_assoc]
  rfl

theorem mem_ne_of_not_contains {l : List Char} {a : Char} (h : l.contains a = false) :
    ∀ c ∈ l, c ≠ a := by
  intro c hc he
  subst he
  rw [show l.contains c = l.elem c from rfl, List.elem_iff.mpr hc] at h
  cases h

theorem takeWhile_append_stop {l r : List Char} (h : ∀ c ∈ l, c ≠ '/') :
    (l ++ '/' :: r).takeWhile (fun c => c != '/') = l := by
  induction l with
  | nil => simp
  | cons x xs ih =>
      have hx : (x != '/') = true := bne_iff_ne.mpr (h x (List.mem_cons_self x xs))
      simp only [List.cons_append, List.takeWhile_cons, hx, if_true]
      rw [ih (fun c hc => h c (List.mem_cons_of_mem x hc))]

theorem takeWhile_all {l : List Char} (h : ∀ c ∈ l, c ≠ '/') :
    l.takeWhile (fun c => c != '/') = l := by
  induction l with
  | nil => rfl
  | cons x xs ih =>
      have hx : (x != '/') = true := bne_iff_ne.mpr (h x (List.mem_cons_self x xs))
      simp only [List.takeWhile_cons, hx, if_true]
      rw [ih (fun c hc => h c (List.mem_cons_of_mem x hc))]

theorem validName_spec {n : String} (h : validName n = true) :
    n ≠ "" ∧ ∀ c ∈ n.data, c ≠ '/' := by
  unfold validName at h
  rw [Bool.and_eq_true] at h
  refine ⟨?_, ?_⟩
  · have h1 : n ≠ "" := by simpa using h.1
    exact h1
  · have h2 : n.data.contains '/' = false := by simpa using h.2
    exact mem_ne_of_not_contains h2

theorem basename_joinPath {p n : String} (hp : p ≠ "") (hn : validName n = true) :
    basename (joinPath p n) = n := by
  obtain ⟨-, hslash⟩ := validName_spec hn
  unfold basename
  rw [joinPath_data p n hp, List.reverse_append, List.reverse_cons, List.append_assoc]
  rw [show ['/'] ++ p.data.reverse = '/' :: p.data.reverse from rfl]
  rw [takeWhile_append_stop (by intro c hc; exact hslash c (List.mem_reverse.mp hc))]
  rw [List.reverse_reverse]

theorem basename_of_valid {n : String} (hn : validName n = true) : basename n = n := by
  obtain ⟨-, hslash⟩ := validName_spec hn
  unfold basename
  rw [takeWhile_all (by intro c hc; exact hslash c (List.mem_reverse.mp hc))]
  rw [List.reverse_reverse]

theorem should_ignore_joinPath {p n : String} (hp : p ≠ "") (hn : validName n = true) :
    should_ignore (joinPath p n) = should_ignore n := by
  unfold should_ignore
  rw [basename_joinPath hp hn, basename_of_valid hn]

/-! ### Lemmas about the set and dict models -/

theorem mem_setAdd {l : List String} {x y : String} :
    x ∈ setAdd l y ↔ x ∈ l ∨ x = y := by
  unfold setAdd
  split
  case isTrue h =>
    constructor
    · exact Or.inl
    · rintro (hx | rfl)
      · exact hx
      · exact List.elem_iff.mp h
  case isFalse h => simp

theorem nodup_setAdd {l : List String} {y : String} (h : l.Nodup) : (setAdd l y).Nodup := by
  unfold setAdd
  split
  case isTrue _ => exact h
  case isFalse hc =>
    rw [List.nodup_append]
    refine ⟨h, List.nodup_singleton _, ?_⟩
    intro a ha hay
    rw [List.mem_singleton] at hay
    subst hay
    exact hc (List.elem_iff.mpr ha)

theorem setAddAll_cons (acc : List String) (x : String) (l : List String) :
    setAddAll acc (x :: l) = setAddAll (setAdd acc x) l := rfl

theorem setAddAll_append (acc : List String) (a b : List String) :
    setAddAll acc (a ++ b) = setAddAll (setAddAll acc a) b := by
  unfold setAddAll
  rw [List.foldl_append]

theorem mem_setAddAll {acc l : List String} {x : String} :
    x ∈ setAddAll acc l ↔ x ∈ acc ∨ x ∈ l := by
  induction l generalizing acc with
  | nil => simp [setAddAll]
  | cons a l ih =>
      rw [setAddAll_cons, ih, mem_setAdd]
      simp only [List.mem_cons]
      tauto

theorem nodup_setAddAll {acc : List String} (l : List String) (h : acc.Nodup) :
    (setAddAll acc l).Nodup := by
  induction l generalizing acc with
  | nil => exact h
  | cons a l ih => rw [setAddAll_cons]; exact ih (nodup_setAdd h)

/-! ### Characterizing the analysis fold -/

theorem get_file_info_name (fp fn : String) (pr : ProbeOutcome) :
    (get_file_info fp fn pr).name = fn := by cases pr <;> rfl

theorem get_file_info_path (fp fn : String) (pr : ProbeOutcome) :
    (get_file_info fp fn pr).path = fp := by cases pr <;> rfl

theorem processEntry_files (st : AnalysisState) (p n : String) (pr : ProbeOutcome) :
    (processEntry st p n pr).files =
      st.files ++
        (if should_ignore (joinPath p n) then []
         else [get_file_info (joinPath p n) n pr]) := by
  simp only [processEntry]
  split
  case isTrue h => simp
  case isFalse h => rfl

theorem processEntry_languages (st : AnalysisState) (p n : String) (pr : ProbeOutcome) :
    (processEntry st p n pr).languages =
      setAddAll st.languages
        (if should_ignore (joinPath p n) then [] else (tagOfName n).toList) := by
  simp only [processEntry, tagOfName]
  split
  case isTrue h => rfl
  case isFalse h =>
    split
    case isTrue h2 => rfl
    case isFalse h2 => rfl

theorem foldl_processEntry_files (p : String) :
    ∀ (fl : List (String × ProbeOutcome)) (st : AnalysisState),
      (fl.foldl (fun s nf => processEntry s p nf.1 nf.2) st).files =
        st.files ++ dirEmitted p fl := by
  intro fl
  induction fl with
  | nil => intro st; simp [dirEmitted]
  | cons nf rest ih =>
      intro st
      rw [List.foldl_cons, ih, processEntry_files]
      simp [dirEmitted, List.append_assoc]

theorem foldl_processEntry_languages (p : String) :
    ∀ (fl : List (String × ProbeOutcome)) (st : AnalysisState),
      (fl.foldl (fun s nf => processEntry s p nf.1 nf.2) st).languages =
        setAddAll st.languages
          ((dirEmitted p fl).filterMap (fun fe => tagOfName fe.name)) := by
  intro fl
  induction fl with
  | nil => intro st; simp [dirEmitted, setAddAll]
  | cons nf rest ih =>
      intro st
      rw [List.foldl_cons, ih, processEntry_languages, ← setAddAll_append]
      congr 1
      rw [show dirEmitted p (nf :: rest) =
            (if should_ignore (joinPath p nf.1) then []
             else [get_file_info (joinPath p nf.1) nf.1 nf.2]) ++ dirEmitted p rest from rfl]
      rw [List.filterMap_append]
      congr 1
      split
      case isTrue h => rfl
      case isFalse h =>
        simp only [List.filterMap_cons, get_file_info_name]
        cases htag : tagOfName nf.1 <;> simp [htag]

theorem analyzeFold_cons (md : Nat) (st : AnalysisState) (t : String × Nat × List FSEntry)
    (rest : List (String × Nat × List FSEntry)) :
    analyzeFold md st (t :: rest) =
      analyzeFold md
        (if md < t.2.1 then st
         else (filesOf t.2.2).foldl (fun s nf => processEntry s t.1 nf.1 nf.2) st) rest := rfl

theorem allEmitted_cons (md : Nat) (t : String × Nat × List FSEntry)
    (rest : List (String × Nat × List FSEntry)) :
    allEmitted md (t :: rest) =
      (if md < t.2.1 then [] else dirEmitted t.1 (filesOf t.2.2)) ++ allEmitted md rest := rfl

theorem analyzeFold_files (md : Nat) :
    ∀ (L : List (String × Nat × List FSEntry)) (st : AnalysisState),
      (analyzeFold md st L).files = st.files ++ allEmitted md L := by
  intro L
  induction L with
  | nil => intro st; simp [analyzeFold, allEmitted]
  | cons t rest ih =>
      intro st
      rw [analyzeFold_cons, ih, allEmitted_cons]
      split
      case isTrue h => simp
      case isFalse h => rw [foldl_processEntry_files]; simp [List.append_assoc]

theorem analyzeFold_languages (md : Nat) :
    ∀ (L : List (String × Nat × List FSEntry)) (st : AnalysisState),
      (analyzeFold md st L).languages =
        setAddAll st.languages ((allEmitted md L).filterMap (fun fe => tagOfName fe.name)) := by
  intro L
  induction L with
  | nil => intro st; simp [analyzeFold, allEmitted, setAddAll]
  | cons t rest ih =>
      intro st
      rw [analyzeFold_cons, ih, allEmitted_cons, List.filterMap_append, setAddAll_append]
      congr 1
      split
      case isTrue h => rfl
      case isFalse h => rw [foldl_processEntry_languages]

theorem scanFiles_eq (root : String) (c : List FSEntry) (md : Nat) :
    scanFiles (analyze_project_structure root (some c) md) =
      allEmitted md (osWalk md root c) := by
  show (analyzeFold md { files := [], key_files := [], languages := [] }
    (osWalk md root c)).files = _
  rw [analyzeFold_files]
  rfl

theorem scanLanguages_eq (root : String) (c : List FSEntry) (md : Nat) :
    scanLanguages (analyze_project_structure root (some c) md) =
      setAddAll []
        ((allEmitted md (osWalk md root c)).filterMap (fun fe => tagOfName fe.name)) := by
  show (analyzeFold md { files := [], key_files := [], languages := [] }
    (osWalk md root c)).languages = _
  rw [analyzeFold_languages]

theorem mem_dirEmitted {p : String} {fe : FileEntry} :
    ∀ {fl : List (String × ProbeOutcome)}, fe ∈ dirEmitted p fl →
      ∃ nf, nf ∈ fl ∧ should_ignore (joinPath p nf.1) = false ∧
        fe = get_file_info (joinPath p nf.1) nf.1 nf.2 := by
  intro fl
  induction fl with
  | nil => intro h; simp [dirEmitted] at h
  | cons nf rest ih =>
      intro h
      simp only [dirEmitted] at h
      rcases List.mem_append.mp h with h1 | h2
      · split at h1
        case isTrue hig => simp at h1
        case isFalse hig =>
          rw [List.mem_singleton] at h1
          refine ⟨nf, List.mem_cons_self nf rest, ?_, h1⟩
          simpa using hig
      · obtain ⟨nf2, hmem, hig, hfe⟩ := ih h2
        exact ⟨nf2, List.mem_cons_of_mem _ hmem, hig, hfe⟩

theorem mem_allEmitted {md : Nat} {fe : FileEntry} :
    ∀ {L : List (String × Nat × List FSEntry)}, fe ∈ allEmitted md L →
      ∃ t, t ∈ L ∧ t.2.1 ≤ md ∧ fe ∈ dirEmitted t.1 (filesOf t.2.2) := by
  intro L
  induction L with
  | nil => intro h; simp [allEmitted] at h
  | cons t rest ih =>
      intro h
      rw [allEmitted_cons] at h
      rcases List.mem_append.mp h with h1 | h2
      · split at h1
        case isTrue hd => simp at h1
        case isFalse hd =>
          exact ⟨t, List.mem_cons_self t rest, Nat.le_of_not_lt hd, h1⟩
      · obtain ⟨t2, hmem, hd, hfe⟩ := ih h2
        exact ⟨t2, List.mem_cons_of_mem _ hmem, hd, hfe⟩

theorem filesOf_valid :
    ∀ {cs : List FSEntry}, validList cs = true →
      ∀ {nf : String × ProbeOutcome}, nf ∈ filesOf cs → validName nf.1 = true := by
  intro cs
  induction cs with
  | nil => intro _ nf h; simp [filesOf] at h
  | cons e rest ih =>
      intro hv nf h
      rw [show validList (e :: rest) = (validEntry e && validList rest) from rfl,
        Bool.and_eq_true] at hv
      cases e with
      | file n pr =>
          simp only [filesOf] at h
          rcases List.mem_cons.mp h with rfl | h2
          · exact hv.1
          · exact ih hv.2 h2
      | dir n cs2 =>
          simp only [filesOf] at h
          exact ih hv.2 h

/-! ### The walk invariant: visited directories decompose into valid,
unignored path segments below the root -/

theorem data_nil_iff (s : String) : s.data = [] ↔ s = "" := by
  constructor
  · intro h
    cases s with
    | mk d => simp at h; subst h; rfl
  · intro h
    subst h
    rfl

theorem validList_cons (e : FSEntry) (rest : List FSEntry) :
    validList (e :: rest) = (validEntry e && validList rest) := rfl

theorem validEntry_dir (n : String) (cs : List FSEntry) :
    validEntry (FSEntry.dir n cs) = (validName n && validList cs) := rfl

theorem flatSegs_append (a b : List String) :
    flatSegs (a ++ b) = flatSegs a ++ flatSegs b := by
  induction a with
  | nil => rfl
  | cons s rest ih => simp [flatSegs, ih, List.append_assoc]

theorem count_flatSegs {segs : List String} (h : ∀ s ∈ segs, validName s = true) :
    (flatSegs segs).count '/' = segs.length := by
  induction segs with
  | nil => rfl
  | cons s rest ih =>
      have hs := (validName_spec (h s (List.mem_cons_self s rest))).2
      have hcount : s.data.count '/' = 0 :=
        List.count_eq_zero.mpr (fun hmem => hs '/' hmem rfl)
      have ihr := ih (fun t ht => h t (List.mem_cons_of_mem _ ht))
      simp [flatSegs, List.count_cons, List.count_append, hcount, ihr]

theorem drop_append_len {α : Type} (a b : List α) (k : Nat) :
    (a ++ b).drop (a.length + k) = b.drop k := by
  simp [List.drop_append]

theorem relDepth_decomp {root p : String} {segs : List String} (hne : segs ≠ [])
    (hp : p.data = root.data ++ flatSegs segs) (hv : ∀ s ∈ segs, validName s = true) :
    relDepth root p = segs.length := by
  unfold relDepth
  rw [hp, show root.data.length + 1 = root.data.length + 1 from rfl,
    drop_append_len root.data (flatSegs segs) 1]
  cases segs with
  | nil => exact absurd rfl hne
  | cons s rest =>
      rw [show flatSegs (s :: rest) = '/' :: (s.data ++ flatSegs rest) from rfl,
        List.drop_succ_cons, List.drop_zero]
      have hs := (validName_spec (hv s (List.mem_cons_self s rest))).2
      have hcount : s.data.count '/' = 0 :=
        List.count_eq_zero.mpr (fun hmem => hs '/' hmem rfl)
      rw [List.count_append, hcount,
        count_flatSegs (fun t ht => hv t (List.mem_cons_of_mem _ ht))]
      simp

theorem walkKids_inv (md : Nat) (root : String) (hroot : root ≠ "") :
    ∀ (N : Nat) (l : List FSEntry) (p : String) (d : Nat) (segs : List String),
      sizeOf l ≤ N → validList l = true →
      p.data = root.data ++ flatSegs segs → segs.length = d →
      (∀ s ∈ segs, validName s = true) →
      (d ≤ md → ∀ s ∈ segs, should_ignore s = false) →
      ∀ t ∈ walkKids md p d l,
        ∃ segs2 : List String,
          t.1.data = root.data ++ flatSegs segs2 ∧ segs2.length = t.2.1 ∧
          (∀ s ∈ segs2, validName s = true) ∧
          (t.2.1 ≤ md → ∀ s ∈ segs2, should_ignore s = false) ∧
          validList t.2.2 = true := by
  intro N
  induction N with
  | zero =>
      intro l p d segs hsize hval hp hlen hvn hsi t ht
      cases l with
      | nil => simp [walkKids] at ht
      | cons e rest =>
          exfalso
          simp [List.cons.sizeOf_spec] at hsize
  | succ N ih =>
      intro l p d segs hsize hval hp hlen hvn hsi t ht
      cases l with
      | nil => simp [walkKids] at ht
      | cons e rest =>
          rw [validList_cons, Bool.and_eq_true] at hval
          obtain ⟨hve, hvr⟩ := hval
          have hrest : sizeOf rest ≤ N := by
            simp [List.cons.sizeOf_spec] at hsize
            have : 1 ≤ sizeOf e := by cases e <;> simp <;> omega
            omega
          rw [show walkKids md p d (e :: rest) =
            walkEntry md p d e ++ walkKids md p d rest from rfl] at ht
          rcases List.mem_append.mp ht with h1 | h2
          · cases e with
            | file n pr => simp [walkEntry] at h1
            | dir n cs =>
                rw [validEntry_dir, Bool.and_eq_true] at hve
                obtain ⟨hvn2, hvcs⟩ := hve
                have hpne : p ≠ "" := by
                  intro h0
                  rw [h0] at hp
                  have h1 : ([] : List Char) = root.data ++ flatSegs segs := hp
                  have h2 : root.data = [] := (List.append_eq_nil.mp h1.symm).1
                  exact hroot ((data_nil_iff root).mp h2)
                have hcs : sizeOf cs ≤ N := by
                  simp [List.cons.sizeOf_spec, FSEntry.dir.sizeOf_spec] at hsize
                  omega
                simp only [walkEntry] at h1
                split at h1
                case isFalse => simp at h1
                case isTrue hcond =>
                  have hqdata : (joinPath p n).data = root.data ++ flatSegs (segs ++ [n]) := by
                    rw [joinPath_data p n hpne, hp, flatSegs_append]
                    simp [flatSegs, List.append_assoc]
                  have hsegs2v : ∀ s ∈ segs ++ [n], validName s = true := by
                    intro s hs
                    rcases List.mem_append.mp hs with h | h
                    · exact hvn s h
                    · rw [List.mem_singleton] at h; rw [h]; exact hvn2
                  have hsegs2i : d + 1 ≤ md → ∀ s ∈ segs ++ [n], should_ignore s = false := by
                    intro hdm s hs
                    rcases List.mem_append.mp hs with h | h
                    · exact hsi (Nat.le_of_succ_le hdm) s h
                    · rw [List.mem_singleton] at h; rw [h]
                      have hnd : ¬ (md < d) := by omega
                      rw [Bool.or_eq_true] at hcond
                      rcases hcond with hc | hc
                      · exact absurd (of_decide_eq_true hc) hnd
                      · have hc2 : should_ignore (joinPath p n) = false := by
                          simpa using hc
                        rw [← should_ignore_joinPath hpne hvn2]
                        exact hc2
                  have hlen2 : (segs ++ [n]).length = d + 1 := by simp [hlen]
                  rcases List.mem_cons.mp h1 with heq | hrec
                  · subst heq
                    exact ⟨segs ++ [n], hqdata, hlen2, hsegs2v, hsegs2i, hvcs⟩
                  · exact ih cs (joinPath p n) (d + 1) (segs ++ [n]) hcs hvcs hqdata
                      hlen2 hsegs2v hsegs2i t hrec
          · exact ih rest p d segs hrest hvr hp hlen hvn hsi t h2

theorem osWalk_inv (md : Nat) (root : String) (c : List FSEntry) (hroot : root ≠ "")
    (hval : validList c = true) :
    ∀ t ∈ osWalk md root c,
      ∃ segs2 : List String,
        t.1.data = root.data ++ flatSegs segs2 ∧ segs2.length = t.2.1 ∧
        (∀ s ∈ segs2, validName s = true) ∧
        (t.2.1 ≤ md → ∀ s ∈ segs2, should_ignore s = false) ∧
        validList t.2.2 = true := by
  intro t ht
  rw [show osWalk md root c = (root, 0, c) :: walkKids md root 0 c from rfl] at ht
  rcases List.mem_cons.mp ht with heq | hrec
  · subst heq
    refine ⟨[], by simp [flatSegs], rfl, by simp, by simp, hval⟩
  · exact walkKids_inv md root hroot (sizeOf c) c root 0 [] (Nat.le_refl _) hval
      (by simp [flatSegs]) rfl (by simp) (by simp) t hrec

/-! ### Master decomposition of returned file entries -/

theorem mem_of_getLast?_eq {α : Type} : ∀ {l : List α} {a : α}, l.getLast? = some a → a ∈ l := by
  intro l
  induction l with
  | nil => intro a h; simp at h
  | cons x xs ih =>
      intro a h
      cases xs with
      | nil =>
          simp at h
          subst h
          exact List.mem_cons_self x []
      | cons y ys =>
          rw [List.getLast?_cons_cons] at h
          exact List.mem_cons_of_mem x (ih h)

theorem scanFiles_decomp (md : Nat) (root : String) (c : List FSEntry)
    (hroot : root ≠ "") (hval : validList c = true) :
    ∀ fe ∈ scanFiles (analyze_project_structure root (some c) md),
      ∃ (segs : List String) (pr : ProbeOutcome),
        segs ≠ [] ∧
        fe.path.data = root.data ++ flatSegs segs ∧
        segs.getLast? = some fe.name ∧
        (∀ s ∈ segs, validName s = true) ∧
        (∀ s ∈ segs, should_ignore s = false) ∧
        segs.length ≤ md + 1 ∧
        fe = get_file_info fe.path fe.name pr := by
  intro fe hfe
  rw [scanFiles_eq] at hfe
  obtain ⟨t, htw, htd, hfd⟩ := mem_allEmitted hfe
  obtain ⟨segs0, hdata, hlen, hvn, hsi, hvcs⟩ := osWalk_inv md root c hroot hval t htw
  obtain ⟨nf, hnf, hig, hfe2⟩ := mem_dirEmitted hfd
  have hnfv : validName nf.1 = true := filesOf_valid hvcs hnf
  have htne : t.1 ≠ "" := by
    intro h0
    rw [h0] at hdata
    have h1 : ([] : List Char) = root.data ++ flatSegs segs0 := hdata
    exact hroot ((data_nil_iff root).mp (List.append_eq_nil.mp h1.symm).1)
  have hpath : fe.path = joinPath t.1 nf.1 := by rw [hfe2, get_file_info_path]
  have hname : fe.name = nf.1 := by rw [hfe2, get_file_info_name]
  refine ⟨segs0 ++ [nf.1], nf.2, by simp, ?_, ?_, ?_, ?_, ?_, ?_⟩
  · rw [hpath, joinPath_data _ _ htne, hdata, flatSegs_append]
    simp [flatSegs, List.append_assoc]
  · rw [hname]; simp
  · intro s hs
    rcases List.mem_append.mp hs with h | h
    · exact hvn s h
    · rw [List.mem_singleton] at h; rw [h]; exact hnfv
  · intro s hs
    rcases List.mem_append.mp hs with h | h
    · exact hsi htd s h
    · rw [List.mem_singleton] at h; rw [h]
      rw [← should_ignore_joinPath htne hnfv]
      exact hig
  · simp only [List.length_append, List.length_singleton, hlen]
    omega
  · rw [hpath, hname]; exact hfe2

theorem scanFiles_shape (md : Nat) (root : String) (c : List FSEntry) :
    ∀ fe ∈ scanFiles (analyze_project_structure root (some c) md),
      ∃ (fp fn : String) (pr : ProbeOutcome), fe = get_file_info fp fn pr := by
  intro fe hfe
  rw [scanFiles_eq] at hfe
  obtain ⟨t, _, _, hfd⟩ := mem_allEmitted hfe
  obtain ⟨nf, _, _, hfe2⟩ := mem_dirEmitted hfd
  exact ⟨joinPath t.1 nf.1, nf.1, nf.2, hfe2⟩

/-! ### Claims C1, C3, C4, C5, C7, C8, C10 -/

/-- Claim C1, counterexample to the claim as stated: with `max_depth = 1`
the file `f.py` inside directory `a` — at path depth 2 below the root —
is present in `files`, and its depth 2 exceeds the bound 1. -/
theorem C1_counterexample :
    (scanFiles (analyze_project_structure "r" (some treeC1) 1)).map
      FileEntry.path = ["r/a/f.py"] ∧ ¬ relDepth "r" "r/a/f.py" ≤ 1 := by
  exact ⟨rfl, by decide⟩

/-- Claim C1 as amended: for every existing root and depth bound `D`, every
returned FileEntry has a path-segment depth relative to the root of at
most `D + 1` (a file in a directory at the bound depth is still listed),
not `D` as claimed. -/
theorem C1_amended : ∀ (root : String) (c : List FSEntry) (D : Nat),
    root ≠ "" → validList c = true →
    ∀ fe ∈ scanFiles (analyze_project_structure root (some c) D),
      relDepth root fe.path ≤ D + 1 := by
  intro root c D hroot hval fe hfe
  obtain ⟨segs, pr, hne, hdata, hlast, hvn, hsi, hlen, hshape⟩ :=
    scanFiles_decomp D root c hroot hval fe hfe
  rw [relDepth_decomp hne hdata hvn]
  exact hlen

/-- Witness for C1 at a concrete root, tree and depth bound. -/
theorem C1_witness : relDepth "r" entryC1.path ≤ 1 + 1 :=
  C1_amended "r" treeC1 1 (by decide) (by decide) entryC1 (by decide)

/-- Claim C3, counterexample to the claim as stated: a file whose metadata
probe failed (its entry carries only the `error` field) still contributes
its language tag, because the detection reads the suffix of the path, not
the probe result. -/
theorem C3_counterexample :
    scanLanguages (analyze_project_structure "r" (some treeC3) 3) = ["py"] ∧
    (scanFiles (analyze_project_structure "r" (some treeC3) 3)).map
      FileEntry.error = [some "Access denied"] := ⟨rfl, rfl⟩

/-- Claim C3 as amended: `languages` has no duplicates and contains exactly
the tags of allowlisted extensions among the non-ignored files within the
depth bound, regardless of whether the probe succeeded. -/
theorem C3_amended : ∀ (root : String) (c : List FSEntry) (md : Nat),
    (scanLanguages (analyze_project_structure root (some c) md)).Nodup ∧
    ∀ tag : String,
      tag ∈ scanLanguages (analyze_project_structure root (some c) md) ↔
      ∃ fe ∈ scanFiles (analyze_project_structure root (some c) md),
        tagOfName fe.name = some tag := by
  intro root c md
  constructor
  · rw [scanLanguages_eq]
    exact nodup_setAddAll _ List.nodup_nil
  · intro tag
    rw [scanLanguages_eq, scanFiles_eq, mem_setAddAll]
    simp [List.mem_filterMap]

/-- Witness for C3 at a concrete tree and tag. -/
theorem C3_witness :
    (scanLanguages (analyze_project_structure "r" (some treeC3) 3)).Nodup ∧
    ("py" ∈ scanLanguages (analyze_project_structure "r" (some treeC3) 3) ↔
      ∃ fe ∈ scanFiles (analyze_project_structure "r" (some treeC3) 3),
        tagOfName fe.name = some "py") :=
  ⟨(C3_amended "r" treeC3 3).1, (C3_amended "r" treeC3 3).2 "py"⟩

/-- Claim C4: no returned entry has a base name matching an ignore
pattern, and every entry's path decomposes into root-relative segments —
the chain of directory names it lies under, ending in its own name — none
of which matches an ignore pattern (so no entry descends from an ignored
directory). -/
theorem C4_theorem : ∀ (root : String) (c : List FSEntry),
    root ≠ "" → validList c = true →
    ∀ fe ∈ scanFiles (scan_project root (some c)),
      should_ignore fe.name = false ∧
      ∃ segs : List String, segs ≠ [] ∧
        fe.path.data = root.data ++ flatSegs segs ∧
        segs.getLast? = some fe.name ∧
        (∀ s ∈ segs, validName s = true) ∧
        ∀ s ∈ segs, should_ignore s = false := by
  intro root c hroot hval fe hfe
  obtain ⟨segs, pr, hne, hdata, hlast, hvn, hsi, hlen, hshape⟩ :=
    scanFiles_decomp 3 root c hroot hval fe hfe
  refine ⟨hsi fe.name (mem_of_getLast?_eq hlast), segs, hne, hdata, hlast, hvn, hsi⟩

/-- Witness for C4 at a concrete root and tree. -/
theorem C4_witness :
    should_ignore entryC4.name = false ∧
    ∃ segs : List String, segs ≠ [] ∧
      entryC4.path.data = "r".data ++ flatSegs segs ∧
      segs.getLast? = some entryC4.name ∧
      (∀ s ∈ segs, validName s = true) ∧
      ∀ s ∈ segs, should_ignore s = false :=
  C4_theorem "r" treeC4 (by decide) (by decide) entryC4 (by decide)

theorem pathSuffix_shape (n : String) :
    pathSuffix n = "" ∨ strStartsWith (pathSuffix n) "." = true := by
  unfold pathSuffix
  simp only []
  split_ifs with h1 h2
  · left; rfl
  · right
    simp [strStartsWith, List.isPrefixOf]
  · left; rfl

/-- Claim C5, counterexample to the claim as stated: a file named `X.PY`
yields extension `.PY` — the suffix is stored verbatim, not lowercased. -/
theorem C5_counterexample :
    (scanFiles (scan_project "r" (some treeC5))).map
      FileEntry.extension = [some ".PY"] ∧ (".PY" : String) ≠ ".py" := by
  exact ⟨rfl, by decide⟩

/-- Claim C5 as amended: for every returned entry whose probe succeeded,
`extension` is the suffix of the file name kept verbatim — including the
separator, empty when there is none — with no lowercasing. -/
theorem C5_amended : ∀ (root : String) (c : List FSEntry) (md : Nat),
    ∀ fe ∈ scanFiles (analyze_project_structure root (some c) md),
      fe.error = none →
      fe.extension = some (pathSuffix fe.name) ∧
      (pathSuffix fe.name = "" ∨ strStartsWith (pathSuffix fe.name) "." = true) := by
  intro root c md fe hfe herr
  obtain ⟨fp, fn, pr, hshape⟩ := scanFiles_shape md root c fe hfe
  subst hshape
  cases pr with
  | ok sz isf =>
      refine ⟨rfl, ?_⟩
      exact pathSuffix_shape _
  | oserror cause => simp [get_file_info] at herr

/-- Witness for C5 at a concrete tree. -/
theorem C5_witness :
    entryC5.extension = some (pathSuffix entryC5.name) ∧
    (pathSuffix entryC5.name = "" ∨ strStartsWith (pathSuffix entryC5.name) "." = true) :=
  C5_amended "r" treeC5 3 entryC5 (by decide) (by decide)

/-- Claim C7: the probe is total and returns exactly one of the two field
groups — on success `size`, `is_file`, `extension` are populated and
`error` absent, on failure only `error` — and a failing probe never
escalates: analysis of an existing root always returns the structure
shape, whatever the probes did. -/
theorem C7_theorem :
    (∀ (fp fn : String) (pr : ProbeOutcome),
      ((get_file_info fp fn pr).error = none ∧ (get_file_info fp fn pr).size ≠ none ∧
        (get_file_info fp fn pr).is_file ≠ none ∧ (get_file_info fp fn pr).extension ≠ none) ∨
      ((get_file_info fp fn pr).error ≠ none ∧ (get_file_info fp fn pr).size = none ∧
        (get_file_info fp fn pr).is_file = none ∧ (get_file_info fp fn pr).extension = none)) ∧
    ∀ (p : String) (c : List FSEntry) (md : Nat),
      ∃ s, analyze_project_structure p (some c) md = ScanResult.ok s := by
  constructor
  · intro fp fn pr
    cases pr with
    | ok sz isf =>
        left
        refine ⟨rfl, ?_, ?_, ?_⟩ <;> simp [get_file_info]
    | oserror cause =>
        right
        refine ⟨?_, rfl, rfl, rfl⟩
        simp [get_file_info]
  · intro p c md
    exact ⟨_, rfl⟩

/-- Claim C10: whatever the cause of the probe failure, the recorded error
is the fixed literal `"Access denied"`, and nothing else is populated. -/
theorem C10_theorem : ∀ (fp fn cause : String),
    get_file_info fp fn (ProbeOutcome.oserror cause) =
      { name := fn, path := fp, size := none, is_file := none,
        extension := none, error := some "Access denied" } := by
  intro fp fn cause
  rfl

/-! ### Prefix and infix lemmas for the generated text -/

theorem nil_isPrefixOf (l : List Char) : List.isPrefixOf [] l = true := by
  cases l <;> rfl

theorem isPrefixOf_append_self : ∀ (l r : List Char), l.isPrefixOf (l ++ r) = true := by
  intro l r
  induction l with
  | nil => exact nil_isPrefixOf r
  | cons x xs ih => simp [List.isPrefixOf, ih]

theorem isPrefixOf_self (l : List Char) : l.isPrefixOf l = true := by
  induction l with
  | nil => rfl
  | cons x xs ih => simp [List.isPrefixOf, ih]

theorem isPrefixOf_trans_append {l : List Char} :
    ∀ {m : List Char}, l.isPrefixOf m = true → ∀ r, l.isPrefixOf (m ++ r) = true := by
  induction l with
  | nil => intro m _ r; exact nil_isPrefixOf _
  | cons x xs ih =>
      intro m h r
      cases m with
      | nil => simp [List.isPrefixOf] at h
      | cons y ys =>
          simp only [List.isPrefixOf, Bool.and_eq_true] at h
          simp only [List.cons_append, List.isPrefixOf, Bool.and_eq_true]
          exact ⟨h.1, ih h.2 r⟩

theorem strStartsWith_append_left (a b pre : String) (h : strStartsWith a pre = true) :
    strStartsWith (a ++ b) pre = true := by
  unfold strStartsWith at h ⊢
  rw [String.data_append]
  exact isPrefixOf_trans_append h _

theorem strStartsWith_self (a : String) : strStartsWith a a = true := by
  unfold strStartsWith
  exact isPrefixOf_self _

theorem listInfixOf_cons (needle : List Char) (c : Char) (cs : List Char)
    (h : listInfixOf needle cs = true) : listInfixOf needle (c :: cs) = true := by
  simp only [listInfixOf]
  rw [h]
  simp

theorem listInfixOf_append_right : ∀ (m b : List Char), listInfixOf m (m ++ b) = true := by
  intro m b
  cases m with
  | nil =>
      cases b with
      | nil => rfl
      | cons c cs => simp [listInfixOf, List.isPrefixOf]
  | cons x xs =>
      have h : (x :: xs).isPrefixOf ((x :: xs) ++ b) = true := isPrefixOf_append_self _ _
      rw [show ((x :: xs) ++ b) = x :: (xs ++ b) from rfl]
      simp only [listInfixOf]
      rw [show x :: (xs ++ b) = (x :: xs) ++ b from rfl, h]
      simp

theorem listInfixOf_middle : ∀ (a m b : List Char), listInfixOf m (a ++ (m ++ b)) = true := by
  intro a m b
  induction a with
  | nil => exact listInfixOf_append_right m b
  | cons y ys ih =>
      rw [List.cons_append]
      exact listInfixOf_cons _ _ _ ih

theorem strContains_middle (pre p suf : String) :
    strContains (pre ++ p ++ suf) p = true := by
  unfold strContains
  rw [String.data_append, String.data_append, List.append_assoc]
  exact listInfixOf_middle _ _ _

/-! ### Claims C8 and C9 -/

/-- Claim C8: scanning a nonexistent root yields the error shape, whose
message mentions the path; scanning an existing root always yields the
structure shape — the two result shapes are mutually exclusive
constructors. -/
theorem C8_theorem : ∀ project_path : String,
    (scan_project project_path none =
        ScanResult.err ("Project path \x27" ++ project_path ++ "\x27 does not exist") ∧
      strContains ("Project path \x27" ++ project_path ++ "\x27 does not exist")
        project_path = true) ∧
    ∀ c : List FSEntry, ∃ s, scan_project project_path (some c) = ScanResult.ok s := by
  intro p
  exact ⟨⟨rfl, strContains_middle "Project path \x27" p "\x27 does not exist"⟩,
    fun c => ⟨_, rfl⟩⟩

/-- Claim C9: an empty `project_name` is falsy and treated exactly like an
absent one — the title falls back to `Path(project_path).name`, which is
itself empty for a path such as `"."` — and the generated document starts
with that derived title. -/
theorem C9_theorem :
    (∀ (p : String) (fs : Option (List FSEntry)) (d : Option String),
        generate_readme p fs (some "") d = generate_readme p fs none d) ∧
    (∀ (p : String) (c : List FSEntry) (d : Option String),
        strStartsWith (generate_readme p (some c) none d)
          ("# " ++ pathName p ++ "\n\n") = true) ∧
    pathName "." = "" := by
  refine ⟨?_, ?_, rfl⟩
  · intro p fs d
    cases fs with
    | none => rfl
    | some c => rfl
  · intro p c d
    obtain ⟨s, hs⟩ : ∃ s, analyze_project_structure p (some c) 3 = ScanResult.ok s :=
      ⟨_, rfl⟩
    have hr : generate_readme p (some c) none d =
        titlePart p none ++ descriptionPart d ++ technologiesPart s ++ installationPart s ++
          usagePart ++ structurePart s ++ contributingPart ++ licensePart s := by
      unfold generate_readme
      rw [hs]
    rw [hr]
    iterate 7 apply strStartsWith_append_left
    rw [show titlePart p none = "# " ++ pathName p ++ "\n\n" from rfl]
    exact strStartsWith_self _

/-! ### Claim C2 -/

/-- Claim C2, counterexample to the claim as stated: with both a
`package.json` and a `Cargo.toml` among the (config-matched) files,
`Cargo.toml` is recorded last into the single `config` slot, the dict
repr no longer mentions `package.json`, and the generated document
carries the `cargo build` block, not the `npm install` block. -/
theorem C2_counterexample :
    strContains (generate_readme "r" (some treeC2) none none) "cargo build" = true ∧
    strContains (generate_readme "r" (some treeC2) none none) "npm install" = false ∧
    (scanFiles (scan_project "r" (some treeC2))).map FileEntry.name =
      ["package.json", "Cargo.toml"] ∧
    scanKeyFiles (scan_project "r" (some treeC2)) = [("config", "r/Cargo.toml")] := by
  exact ⟨rfl, rfl, rfl, rfl⟩

/-- Claim C2 as amended: the Installation block is selected by substring
tests on the `str()` of the whole `key_files` dict — not only its `config`
entry — with first-match priority `package.json`, `requirements.txt`,
`Cargo.toml`, placeholder; since the `config` slot keeps only the last
traversed match, a tree holding both a `package.json` and a `Cargo.toml`
yields whichever block the surviving recorded paths select. -/
theorem C2_amended : ∀ a : ProjectStructure,
    (strContains (dictRepr a.key_files) "package.json" = true →
      installationPart a = "## Installation\n\n" ++ "```bash\nnpm install\n```\n\n") ∧
    (strContains (dictRepr a.key_files) "package.json" = false →
      strContains (dictRepr a.key_files) "requirements.txt" = true →
      installationPart a =
        "## Installation\n\n" ++ "```bash\npip install -r requirements.txt\n```\n\n") ∧
    (strContains (dictRepr a.key_files) "package.json" = false →
      strContains (dictRepr a.key_files) "requirements.txt" = false →
      strContains (dictRepr a.key_files) "Cargo.toml" = true →
      installationPart a = "## Installation\n\n" ++ "```bash\ncargo build\n```\n\n") ∧
    (strContains (dictRepr a.key_files) "package.json" = false →
      strContains (dictRepr a.key_files) "requirements.txt" = false →
      strContains (dictRepr a.key_files) "Cargo.toml" = false →
      installationPart a = "## Installation\n\n" ++ "Add installation instructions here.\n\n") := by
  intro a
  refine ⟨?_, ?_, ?_, ?_⟩
  · intro h1
    simp [installationPart, h1]
  · intro h1 h2
    simp [installationPart, h1, h2]
  · intro h1 h2 h3
    simp [installationPart, h1, h2, h3]
  · intro h1 h2 h3
    simp [installationPart, h1, h2, h3]

/-- Witness for C2 at a concrete `key_files` dict. -/
theorem C2_witness :
    installationPart psC2 = "## Installation\n\n" ++ "```bash\ncargo build\n```\n\n" :=
  (C2_amended psC2).2.2.1 (by decide) (by decide) (by decide)

/-! ### Sortedness of the rendered listings -/

theorem strAppend_assoc (a b c : String) : a ++ b ++ c = a ++ (b ++ c) := by
  apply String.ext
  rw [String.data_append, String.data_append, String.data_append, String.data_append,
    List.append_assoc]

theorem strAppend_empty (a : String) : a ++ "" = a := by
  apply String.ext
  rw [String.data_append]
  show a.data ++ [] = a.data
  simp

theorem strEmpty_append (a : String) : "" ++ a = a := by
  apply String.ext
  rw [String.data_append]
  rfl

theorem foldl_filter_strConcat {β : Type} (pred : β → Bool) (f : β → String) :
    ∀ (l : List β) (acc : String),
      l.foldl (fun acc b => if pred b then acc ++ f b else acc) acc =
        acc ++ strConcat ((l.filter pred).map f) := by
  intro l
  induction l with
  | nil => intro acc; simp [strConcat, strAppend_empty]
  | cons x xs ih =>
      intro acc
      rw [List.foldl_cons]
      cases hp : pred x with
      | true =>
          rw [ih]
          simp only [List.filter_cons, hp, if_pos, List.map_cons]
          rw [show strConcat (f x :: ((xs.filter pred).map f)) =
            f x ++ strConcat ((xs.filter pred).map f) from rfl]
          rw [strAppend_assoc]
      | false =>
          rw [ih]
          simp only [List.filter_cons, hp]
          rfl

theorem mem_insertLe {α : Type} (le : α → α → Bool) (x y : α) :
    ∀ l : List α, y ∈ insertLe le x l ↔ y = x ∨ y ∈ l := by
  intro l
  induction l with
  | nil => simp [insertLe]
  | cons z zs ih =>
      unfold insertLe
      split
      · simp only [List.mem_cons]
      · simp only [List.mem_cons, ih]
        tauto

theorem pairwise_insertLe {α : Type} (le : α → α → Bool)
    (htot : ∀ a b, le a b = true ∨ le b a = true)
    (htrans : ∀ a b c, le a b = true → le b c = true → le a c = true) (x : α) :
    ∀ l : List α, l.Pairwise (fun a b => le a b = true) →
      (insertLe le x l).Pairwise (fun a b => le a b = true) := by
  intro l
  induction l with
  | nil => intro _; simp [insertLe]
  | cons z zs ih =>
      intro hp
      rw [List.pairwise_cons] at hp
      obtain ⟨hz, hzs⟩ := hp
      unfold insertLe
      split
      case isTrue hle =>
        rw [List.pairwise_cons]
        constructor
        · intro b hb
          rcases List.mem_cons.mp hb with rfl | hbz
          · exact hle
          · exact htrans x z b hle (hz b hbz)
        · exact List.Pairwise.cons hz hzs
      case isFalse hle =>
        rw [List.pairwise_cons]
        constructor
        · intro b hb
          rcases (mem_insertLe le x b zs).mp hb with rfl | hbz
          · rcases htot z b with h | h
            · exact h
            · exact absurd h hle
          · exact hz b hbz
        · exact ih hzs

theorem pairwise_sortLe {α : Type} (le : α → α → Bool)
    (htot : ∀ a b, le a b = true ∨ le b a = true)
    (htrans : ∀ a b c, le a b = true → le b c = true → le a c = true) :
    ∀ l : List α, (sortLe le l).Pairwise (fun a b => le a b = true) := by
  intro l
  induction l with
  | nil => simp [sortLe]
  | cons x xs ih => exact pairwise_insertLe le htot htrans x _ ih

theorem listLe_total : ∀ a b : List Char, listLe a b = true ∨ listLe b a = true := by
  intro a
  induction a with
  | nil => intro b; left; rfl
  | cons x xs ih =>
      intro b
      cases b with
      | nil => right; rfl
      | cons y ys =>
          simp only [listLe]
          rcases Nat.lt_trichotomy x.toNat y.toNat with h | h | h
          · left; simp [h]
          · have h1 : ¬ x.toNat < y.toNat := by omega
            have h2 : ¬ y.toNat < x.toNat := by omega
            simp [h1, h2]
            exact ih ys
          · right; simp [h]

theorem listLe_trans : ∀ a b c : List Char,
    listLe a b = true → listLe b c = true → listLe a c = true := by
  intro a
  induction a with
  | nil => intro b c _ _; rfl
  | cons x xs ih =>
      intro b c hab hbc
      cases b with
      | nil => simp [listLe] at hab
      | cons y ys =>
          cases c with
          | nil => simp [listLe] at hbc
          | cons z zs =>
              simp only [listLe] at hab hbc ⊢
              rcases Nat.lt_trichotomy x.toNat y.toNat with h1 | h1 | h1
              · rcases Nat.lt_trichotomy y.toNat z.toNat with h2 | h2 | h2
                · simp [show x.toNat < z.toNat from by omega]
                · simp [show x.toNat < z.toNat from by omega]
                · exfalso
                  simp [show ¬ y.toNat < z.toNat from by omega, h2] at hbc
              · rcases Nat.lt_trichotomy y.toNat z.toNat with h2 | h2 | h2
                · simp [show x.toNat < z.toNat from by omega]
                · have e1 : ¬ x.toNat < z.toNat := by omega
                  have e2 : ¬ z.toNat < x.toNat := by omega
                  simp only [e1, e2]
                  simp
                  have e3 : ¬ x.toNat < y.toNat := by omega
                  have e4 : ¬ y.toNat < x.toNat := by omega
                  simp [e3, e4] at hab
                  have e5 : ¬ y.toNat < z.toNat := by omega
                  have e6 : ¬ z.toNat < y.toNat := by omega
                  simp [e5, e6] at hbc
                  exact ih ys zs hab hbc
                · exfalso
                  simp [show ¬ y.toNat < z.toNat from by omega, h2] at hbc
              · exfalso
                simp [show ¬ x.toNat < y.toNat from by omega, h1] at hab

theorem strLe_total (a b : String) : strLe a b = true ∨ strLe b a = true :=
  listLe_total a.data b.data

theorem strLe_trans (a b c : String) (hab : strLe a b = true) (hbc : strLe b c = true) :
    strLe a c = true :=
  listLe_trans a.data b.data c.data hab hbc

theorem fileLe_total (a b : FileEntry) : fileLe a b = true ∨ fileLe b a = true :=
  strLe_total a.path b.path

theorem fileLe_trans (a b c : FileEntry) (hab : fileLe a b = true)
    (hbc : fileLe b c = true) : fileLe a c = true :=
  strLe_trans a.path b.path c.path hab hbc

/-! ### Claim C6 -/

/-- Claim C6, counterexample to the claim as stated: the single returned
entry (named `fifo`, probed with `is_file = False`) is within the 20-entry
bound, yet the listing omits it — `fifo` never appears in the document —
because the rendering skips entries whose `is_file` field is `False`. -/
theorem C6_counterexample :
    strContains (generate_readme "r" (some treeC6) none none) "fifo" = false ∧
    (scanFiles (scan_project "r" (some treeC6))).map FileEntry.name = ["fifo"] ∧
    (scanFiles (scan_project "r" (some treeC6))).length ≤ 20 := by
  exact ⟨rfl, rfl, by decide⟩

/-- Claim C6 as amended: the Project Structure section is emitted exactly
when `files` has at most 20 entries, and it then lists — relative to the
root, sorted by full path (stably, by the lexicographic order `fileLe`) —
the entries whose `is_file` field is not the explicit value `False`:
probe-failed entries (no `is_file` field) are listed, `is_file = False`
entries are not. -/
theorem C6_amended : ∀ a : ProjectStructure,
    (structurePart a = "" ↔ 20 < a.files.length) ∧
    (a.files.length ≤ 20 →
      structurePart a =
        "## Project Structure\n\n```\n" ++
          strConcat (((sortLe fileLe a.files).filter (fun fi => fi.is_file.getD true)).map
            (fun fi => relPathStr a.root fi.path ++ "\n")) ++
          "```\n\n") ∧
    (sortLe fileLe a.files).Pairwise (fun x y => fileLe x y = true) := by
  intro a
  have hemit : a.files.length ≤ 20 →
      structurePart a =
        "## Project Structure\n\n```\n" ++
          strConcat (((sortLe fileLe a.files).filter (fun fi => fi.is_file.getD true)).map
            (fun fi => relPathStr a.root fi.path ++ "\n")) ++
          "```\n\n" := by
    intro h
    unfold structurePart
    rw [if_pos h, foldl_filter_strConcat, strEmpty_append]
  refine ⟨⟨?_, ?_⟩, hemit, pairwise_sortLe fileLe fileLe_total fileLe_trans a.files⟩
  · intro h0
    by_contra hlen
    push_neg at hlen
    rw [hemit hlen] at h0
    have hd := congrArg String.data h0
    rw [String.data_append, String.data_append] at hd
    have h1 := (List.append_eq_nil.mp hd).1
    have h2 := (List.append_eq_nil.mp h1).1
    exact absurd h2 (by decide)
  · intro hgt
    unfold structurePart
    rw [if_neg (by omega)]

/-- Witness for C6 at a concrete structure. -/
theorem C6_witness :
    structurePart psC6 =
      "## Project Structure\n\n```\n" ++
        strConcat (((sortLe fileLe psC6.files).filter (fun fi => fi.is_file.getD true)).map
          (fun fi => relPathStr psC6.root fi.path ++ "\n")) ++
        "```\n\n" ∧
    (sortLe fileLe psC6.files).Pairwise (fun x y => fileLe x y = true) :=
  ⟨(C6_amended psC6).2.1 (by decide), (C6_amended psC6).2.2⟩
